import Mathlib

/-!
# A verification development for a simplified proof-of-work cryptocurrency node

Shallow embedding of the node's core components — SHA-256 based hashing,
Merkle trees (`src/crypto/merkle.rs`), the blockchain index
(`src/blockchain.rs`), the UTXO state and mempool (`src/transaction.rs`),
the gossip worker's block/transaction handlers (`src/network/worker.rs`)
and the miner loop (`src/miner.rs`).

Conventions of the embedding:
* Bytes are `Nat` values below 256; byte strings are `List Nat`.
* `H256` digests are represented by their value as big-endian unsigned
  256-bit integers (the comparison order used for the proof-of-work test);
  `H160` addresses likewise as 160-bit values.
* SHA-256 is implemented in full (the `crypto/hash.rs` facade of the
  repository is not part of the sources; its digest semantics are modelled
  from the spec as genuine SHA-256 over the serialized bytes).
* Rust `HashMap`s are association lists with first-match lookup and
  replace-in-place insertion, which reproduces the extensional behaviour
  of `HashMap` insert/remove/lookup.
* Code that can panic (out-of-bounds indexing, checked usize subtraction)
  returns `Option`, `none` modelling the panic; `none` likewise models a
  `Mutex::lock` that cannot return because the calling thread already holds
  the lock (a same-thread re-lock of `std::sync::Mutex` deadlocks or
  panics, and in either case the code after it never runs).
-/

/-! ## SHA-256 over byte lists -/

/-- Truncate to a 32-bit word. -/
def mask32 (x : Nat) : Nat := x % 4294967296

/-- 32-bit addition with wrap-around. -/
def add32 (a b : Nat) : Nat := mask32 (a + b)

/-- Right-rotation of a 32-bit word by `k` positions. -/
def rotr32 (k x : Nat) : Nat := x / 2 ^ k + x % 2 ^ k * 2 ^ (32 - k)

/-- Logical right shift of a 32-bit word. -/
def shr32 (k x : Nat) : Nat := x / 2 ^ k

/-- Bitwise complement on 32 bits. -/
def not32 (x : Nat) : Nat := Nat.xor x 4294967295

/-- SHA-256 choice function. -/
def shaCh (x y z : Nat) : Nat := Nat.xor (Nat.land x y) (Nat.land (not32 x) z)

/-- SHA-256 majority function. -/
def shaMaj (x y z : Nat) : Nat :=
  Nat.xor (Nat.xor (Nat.land x y) (Nat.land x z)) (Nat.land y z)

/-- SHA-256 big sigma 0. -/
def bigSigma0 (x : Nat) : Nat := Nat.xor (Nat.xor (rotr32 2 x) (rotr32 13 x)) (rotr32 22 x)

/-- SHA-256 big sigma 1. -/
def bigSigma1 (x : Nat) : Nat := Nat.xor (Nat.xor (rotr32 6 x) (rotr32 11 x)) (rotr32 25 x)

/-- SHA-256 small sigma 0. -/
def smallSigma0 (x : Nat) : Nat := Nat.xor (Nat.xor (rotr32 7 x) (rotr32 18 x)) (shr32 3 x)

/-- SHA-256 small sigma 1. -/
def smallSigma1 (x : Nat) : Nat := Nat.xor (Nat.xor (rotr32 17 x) (rotr32 19 x)) (shr32 10 x)

/-- The SHA-256 initial hash value (FIPS 180-4 section 5.3.3). -/
def shaH0 : List Nat :=
  [1779033703, 3144134277, 1013904242, 2773480762,
   1359893119, 2600822924, 528734635, 1541459225]

/-- `n` bytes of `v` in big-endian order. -/
def beBytes : Nat → Nat → List Nat
  | 0, _ => []
  | n + 1, v => beBytes n (v / 256) ++ [v % 256]

/-- `n` bytes of `v` in little-endian order (the bincode integer encoding). -/
def leBytes : Nat → Nat → List Nat
  | 0, _ => []
  | n + 1, v => v % 256 :: leBytes n (v / 256)

/-- Value of a byte string read in big-endian order. -/
def beValue (bytes : List Nat) : Nat := bytes.foldl (fun a b => a * 256 + b) 0

/-- SHA-256 message padding: append `0x80`, zeros and the 64-bit big-endian
bit length so that the total length is a multiple of 64 bytes. -/
def shaPad (msg : List Nat) : List Nat :=
  msg ++ [128] ++ List.replicate ((119 - msg.length % 64) % 64) 0
      ++ beBytes 8 (8 * msg.length)

/-- Accumulating worker for `chunksOf`: `cur` holds the bytes of the chunk
under construction in reverse order. -/
def chunksGo (n : Nat) : List α → List α → List (List α)
  | [], cur => if cur.isEmpty then [] else [cur.reverse]
  | a :: t, cur =>
      if (a :: cur).length = n then (a :: cur).reverse :: chunksGo n t []
      else chunksGo n t (a :: cur)

/-- Split a list into chunks of `n` elements (`n > 0`). -/
def chunksOf (n : Nat) (l : List α) : List (List α) := chunksGo n l []

/-- `2^32` as a literal (large powers written out keep evaluation fast). -/
def pow32 : Nat := 4294967296

/-- `2^288` as a literal. -/
def pow288 : Nat :=
  497323236409786642155382248146820840100456150797347717440463976893159497012533375533056

/-- `2^448` as a literal. -/
def pow448 : Nat :=
  726838724295606890549323807888004534353641360687318060281490199180639288113397923326191050713763565560762521606266177933534601628614656

/-- `2^480` as a literal. -/
def pow480 : Nat :=
  3121748550315992231381597229793166305748598142664971150859156959625371738819765620120306103063491971159826931121406622895447975679288285306290176

/-- The 64 SHA-256 round constants (FIPS 180-4 section 4.2.2) packed into
one integer, `K[t]` in bits `32t .. 32t+31`, so that each round extracts its
constant with one division. -/
def shaKPacked : Nat :=
  25051139735836467913601071899189108501681633092613316132753366958947502841281110980347811086624969305314199562795868290539880502533646505489797110349007385020507326982043050618112420254613810441709594605123090411975756494285771699200369901479195251226368983824020564277645963860728452821576845901498668417244438721537663670541944820957180957595559282976806173113161068298822071065329290006052849814285001949914564097058408480133985233335799884203712730341384999677089997083749077591931498939520449886954646413138343858395935213418018409268340744776361518554939863400075967197509182087778881547827184266701615699472280

/-- Group a 64-byte block into sixteen 32-bit big-endian words, packed into
one integer with `w[i]` in bits `32i .. 32i+31`. -/
def packWords (block : List Nat) : Nat :=
  ((chunksOf 4 block).map beValue).foldr (fun w acc => w + acc * pow32) 0

/-- Evaluation-order control: pass `n` to `f` after reducing it to a numeral
(the pattern match forces it), so that repeated uses of the argument share
one evaluation. Semantically `seqNat n f = f n`. -/
def seqNat (n : Nat) (f : Nat → α) : α :=
  match n with
  | 0 => f 0
  | m + 1 => f (m + 1)

/-- The 64 SHA-256 rounds. `ws` is the schedule window `w[t] .. w[t+15]`
packed like `packWords` (lowest 32 bits are `w[t]`); each round consumes
`w[t]`, extends the schedule by `w[t+16]` and shifts the window. `kp` is the
remaining packed round constants. -/
def shaRoundsGo : Nat → Nat → Nat → Nat → Nat → Nat → Nat → Nat → Nat → Nat → Nat → List Nat
  | 0 => fun _ _ a b c d e f g h => [a, b, c, d, e, f, g, h]
  | t + 1 => fun kp ws a b c d e f g h =>
      seqNat (ws % pow32) fun w0 =>
      seqNat (add32 (add32 (add32 h (bigSigma1 e)) (add32 (shaCh e f g) (kp % pow32))) w0) fun t1 =>
      seqNat (add32 (bigSigma0 a) (shaMaj a b c)) fun t2 =>
      seqNat (add32 (add32 w0 (smallSigma0 (ws / pow32 % pow32)))
                    (add32 (ws / pow288 % pow32) (smallSigma1 (ws / pow448 % pow32)))) fun wnew =>
      seqNat (kp / pow32) fun kp' =>
      seqNat (ws / pow32 + wnew * pow480) fun ws' =>
      seqNat (add32 t1 t2) fun a' =>
      seqNat (add32 d t1) fun e' =>
      shaRoundsGo t kp' ws' a' a b c e' e f g

/-- SHA-256 compression of one 64-byte block into the running hash. -/
def shaCompress (h : List Nat) (block : List Nat) : List Nat :=
  match h with
  | [a, b, c, d, e, f, g, hh] =>
      let s := shaRoundsGo 64 shaKPacked (packWords block) a b c d e f g hh
      (List.zip [a, b, c, d, e, f, g, hh] s).map fun p => add32 p.1 p.2
  | s => s

/-- SHA-256 digest of a byte string, as the list of its 32 digest bytes. -/
def sha256Bytes (msg : List Nat) : List Nat :=
  ((chunksOf 64 (shaPad msg)).foldl shaCompress shaH0).foldr
    (fun wv acc => beBytes 4 wv ++ acc) []

/-- SHA-256 digest of a byte string as a 256-bit big-endian value (`H256`). -/
def sha256 (msg : List Nat) : Nat := beValue (sha256Bytes msg)

/-- Double SHA-256 digest bytes: SHA-256 of the SHA-256 digest bytes. -/
def sha256dBytes (msg : List Nat) : List Nat := sha256Bytes (sha256Bytes msg)

/-- Double SHA-256 as a 256-bit value. -/
def sha256d (msg : List Nat) : Nat := beValue (sha256dBytes msg)

/-! ## Data model (`src/transaction.rs`, `src/block.rs`)

Byte-level serialization is the bincode encoding used by the source for
hashing: little-endian fixed-width integers, `u64` length-prefixed vectors,
fixed 32/20-byte digest/address payloads. The `H256`/`H160` wrapper types
live in the repository's `crypto/hash.rs`, which is not among the sources;
their semantics (32-byte SHA-256 digest compared as a big-endian unsigned
integer, 20-byte address) are modelled from the spec. -/

/-- `H256` digest, as its value as a big-endian unsigned 256-bit integer. -/
abbrev H256 := Nat

/-- `H160` address, as its value as a big-endian unsigned 160-bit integer. -/
abbrev H160 := Nat

/-- A transaction input: `TxIn { previous_output: H256, index: u8 }`. -/
structure TxIn where
  previous_output : H256
  index : Nat
deriving DecidableEq, Repr

/-- A transaction output: `TxOut { recipient: H160, value: u64 }`. -/
structure TxOut where
  recipient : H160
  value : Nat
deriving DecidableEq, Repr

/-- `Transaction { input: Vec<TxIn>, output: Vec<TxOut> }`. -/
structure Transaction where
  input : List TxIn
  output : List TxOut
deriving DecidableEq, Repr

/-- `SignedTransaction { transaction, public_key: Vec<u8>, signature: Vec<u8> }`. -/
structure SignedTransaction where
  transaction : Transaction
  public_key : List Nat
  signature : List Nat
deriving DecidableEq, Repr

/-- Block header: `Header { parent, nonce: u32, difficulty, timestamp: u128,
merkle_root }` (`src/block.rs`). -/
structure Header where
  parent : H256
  nonce : Nat
  difficulty : H256
  timestamp : Nat
  merkle_root : H256
deriving DecidableEq, Repr

/-- `Content { data: Vec<SignedTransaction> }`. -/
structure Content where
  data : List SignedTransaction
deriving DecidableEq, Repr

/-- `Block { header, content }`. -/
structure Block where
  header : Header
  content : Content
deriving DecidableEq, Repr

/-- Modelled from the spec: serialization of an `H256` (32 raw bytes;
big-endian byte order matches the integer-comparison convention). -/
def serializeH256 (v : H256) : List Nat := beBytes 32 v

/-- Modelled from the spec: serialization of an `H160` (20 raw bytes). -/
def serializeH160 (v : H160) : List Nat := beBytes 20 v

/-- bincode `Vec<T>`: little-endian `u64` length prefix, then the elements. -/
def serializeVec (f : α → List Nat) (l : List α) : List Nat :=
  leBytes 8 l.length ++ (l.map f).flatten

/-- bincode serialization of a `TxIn`. -/
def serializeTxIn (t : TxIn) : List Nat := serializeH256 t.previous_output ++ [t.index % 256]

/-- bincode serialization of a `TxOut`. -/
def serializeTxOut (t : TxOut) : List Nat := serializeH160 t.recipient ++ leBytes 8 t.value

/-- bincode serialization of a `Transaction` (field order `input`, `output`). -/
def serializeTransaction (tx : Transaction) : List Nat :=
  serializeVec serializeTxIn tx.input ++ serializeVec serializeTxOut tx.output

/-- bincode serialization of a `SignedTransaction`. -/
def serializeSignedTransaction (st : SignedTransaction) : List Nat :=
  serializeTransaction st.transaction
    ++ serializeVec (fun b => [b % 256]) st.public_key
    ++ serializeVec (fun b => [b % 256]) st.signature

/-- bincode serialization of a `Header` (field order as declared). -/
def serializeHeader (h : Header) : List Nat :=
  serializeH256 h.parent ++ leBytes 4 h.nonce ++ serializeH256 h.difficulty
    ++ leBytes 16 h.timestamp ++ serializeH256 h.merkle_root

/-- `impl Hashable for SignedTransaction`: single SHA-256 of the serialized
`SignedTransaction` — the mempool/gossip key (`src/transaction.rs` lines 80-85). -/
def hashSignedTx (st : SignedTransaction) : H256 := sha256 (serializeSignedTransaction st)

/-- `impl Hashable for Transaction`: single SHA-256 of the serialized
`Transaction`. -/
def hashTransaction (tx : Transaction) : H256 := sha256 (serializeTransaction tx)

/-- The canonical transaction id: double SHA-256 of the serialized
`Transaction` — the value signed in `sign`/`verify` (`src/transaction.rs`). -/
def txidCanonical (tx : Transaction) : H256 := sha256d (serializeTransaction tx)

/-- The digest bytes signed by Ed25519: `sha256d(serialize(tx))` as the raw
32 bytes passed to the signer. -/
def txidDigestBytes (tx : Transaction) : List Nat := sha256dBytes (serializeTransaction tx)

/-- `impl Hashable for Header`: SHA-256 of the serialized header. -/
def hashHeader (h : Header) : H256 := sha256 (serializeHeader h)

/-- `impl Hashable for Block`: the hash of its header (`src/block.rs`). -/
def hashBlock (b : Block) : H256 := hashHeader b.header

/-- Modelled from the spec: `impl Hashable for H256` in the missing
`crypto/hash.rs` — SHA-256 of the 32 digest bytes, validated against the
vectors in the repository's `merkle.rs` tests. -/
def hashH256 (v : H256) : H256 := sha256 (serializeH256 v)

/-- Modelled from the spec: `H256::to_addr` — the low 20 bytes of the digest
(`address(pk) = low 20 bytes of sha256(pk)`). -/
def addressOf (pk : List Nat) : H160 := sha256 pk % 2 ^ 160

/-! ## Association-list maps (the `HashMap`s of the source) -/

/-- First-match lookup, `map[&k]` / `map.get(&k)`. -/
def lookupA [DecidableEq κ] : List (κ × β) → κ → Option β
  | [], _ => none
  | (k', v) :: t, k => if k' = k then some v else lookupA t k

/-- `map.contains_key(&k)`. -/
def containsA [DecidableEq κ] (l : List (κ × β)) (k : κ) : Bool := (lookupA l k).isSome

/-- `map.insert(k, v)`: replace in place if the key is present, else append. -/
def insertA [DecidableEq κ] : List (κ × β) → κ → β → List (κ × β)
  | [], k, v => [(k, v)]
  | (k', v') :: t, k, v => if k' = k then (k, v) :: t else (k', v') :: insertA t k v

/-- `map.remove(&k)` discarding the value. -/
def removeA [DecidableEq κ] : List (κ × β) → κ → List (κ × β)
  | [], _ => []
  | (k', v') :: t, k => if k' = k then t else (k', v') :: removeA t k

/-- `map.remove(&k)` returning the removed value together with the rest. -/
def extractA [DecidableEq κ] : List (κ × β) → κ → Option (β × List (κ × β))
  | [], _ => none
  | (k', v') :: t, k =>
      if k' = k then some (v', t)
      else (extractA t k).map fun p => (p.1, (k', v') :: p.2)

/-! ## Merkle tree (`src/crypto/merkle.rs`)

The construction is generic over the item type and its `Hashable`
implementation (`hashItem`). `Vec` indexing that can go out of bounds is
modelled with `Option`; `none` is the panic. -/

/-- `MerkleTree { tree: Vec<H256>, leaf_num: usize }`. -/
structure MerkleTree where
  tree : List H256
  leaf_num : Nat
deriving DecidableEq, Repr

/-- `Vec` indexing `v[i]`, `none` modelling the out-of-bounds panic. -/
def getA (l : List Nat) (i : Nat) : Option Nat := l.get? i

/-- `sha256(a || b)` over the 32-byte strings of two digests — one
`digest::Context` fed both digests (`ctx.update(a); ctx.update(b)`). -/
def sha256cat (a b : H256) : H256 := sha256 (serializeH256 a ++ serializeH256 b)

/-- The inner `for i in 0..half` loop of `MerkleTree::new`: hashes of the
adjacent pairs `(tree[start+2i], tree[start+2i+1])`, read at indices
`idx, idx+1, ..., idx+remaining-1`. -/
def roundPairsGo (tree : List H256) (start : Nat) : Nat → Nat → Option (List H256)
  | _, 0 => some []
  | idx, remaining + 1 =>
      match getA tree (start + 2 * idx), getA tree (start + 2 * idx + 1) with
      | some a, some b => (roundPairsGo tree start (idx + 1) remaining).map (sha256cat a b :: ·)
      | _, _ => none

/-- One iteration of the `while cur_len > 1` loop body of `MerkleTree::new`:
append the pair hashes of the current row, then — `if data.len() % 2 == 1` —
duplicate the last element of the buffer. -/
def merkleRound (dataLen : Nat) (tree : List H256) (start curLen : Nat) : Option (List H256) :=
  match roundPairsGo tree start 0 (curLen / 2) with
  | none => none
  | some ps =>
      let tree' := tree ++ ps
      some (if dataLen % 2 = 1 then tree' ++ [tree'.getLast?.getD 0] else tree')

/-- The `cur_len /= 2; if cur_len % 2 == 1 && cur_len != 1 { cur_len += 1 }`
adjustment at the end of each loop iteration. -/
def merkleAdjust (n : Nat) : Nat := if n % 2 = 1 ∧ n ≠ 1 then n + 1 else n

/-- The `while cur_len > 1` loop of `MerkleTree::new`. The fuel argument only
bounds the iteration count (the loop strictly decreases `cur_len`); with fuel
`cur_len + 1` it never runs out. -/
def merkleLoop (dataLen : Nat) : Nat → List H256 → Nat → Nat → Option (List H256)
  | 0, _, _, _ => none
  | fuel + 1, tree, start, curLen =>
      if curLen > 1 then
        match merkleRound dataLen tree start curLen with
        | none => none
        | some tree' => merkleLoop dataLen fuel tree' (start + curLen) (merkleAdjust (curLen / 2))
      else some tree

/-- `MerkleTree::new(data)`: hash every leaf, duplicate the last leaf hash if
the leaf count is odd and not 1, then run the row-building loop. -/
def MerkleTree.new (hashItem : α → H256) (data : List α) : Option MerkleTree :=
  let n := data.length
  let tree0 := data.map hashItem
  let tree1 := if n % 2 = 1 ∧ n ≠ 1 then tree0 ++ [tree0.getLast?.getD 0] else tree0
  let len1 := if n % 2 = 1 ∧ n ≠ 1 then n + 1 else n
  (merkleLoop n (len1 + 1) tree1 0 len1).map fun t => ⟨t, len1⟩

/-- `MerkleTree::root`: `self.tree[self.tree.len()-1]`; on an empty buffer
the index computation underflows and the access panics — `none`. -/
def MerkleTree.root (t : MerkleTree) : Option H256 := t.tree.getLast?

/-- The `while in_size > cur` loop of `findHeight`, fuelled (the height is at
most `in_size` for the inputs used, so fuel `in_size` suffices). -/
def findHeightGo (inSize : Nat) : Nat → Nat → Nat → Nat
  | 0, height, _ => height
  | fuel + 1, height, cur => if inSize > cur then findHeightGo inSize fuel (height + 1) (2 * cur) else height

/-- `findHeight(in_size)`: the smallest `h` with `in_size ≤ 2^h`. -/
def findHeight (inSize : Nat) : Nat := findHeightGo inSize inSize 0 1

/-- The `for i in 0..height` loop of `MerkleTree::proof`, collecting sibling
hashes; the first argument counts the remaining iterations. -/
def proofGo (tree : List H256) (leafNum height : Nat) : Nat → Nat → Nat → Nat → Option (List H256)
  | 0 => fun _ _ _ => some []
  | remaining + 1 => fun i curIndex sequence =>
      let group := (curIndex - sequence) / 2
      match (if curIndex % 2 = 1 then getA tree (curIndex - 1) else getA tree (curIndex + 1)) with
      | none => none
      | some sib =>
          let sequence' := if i = 0 then sequence + leafNum else sequence + 2 ^ (height - i)
          (proofGo tree leafNum height remaining (i + 1) (sequence' + group) sequence').map (sib :: ·)

/-- `MerkleTree::proof(index)`: empty proof when `index >= leaf_num`, else
the bottom-up sibling walk. -/
def MerkleTree.proof (t : MerkleTree) (index : Nat) : Option (List H256) :=
  if index ≥ t.leaf_num then some []
  else
    let height := findHeight t.leaf_num
    proofGo t.tree t.leaf_num height height 0 index 0

/-- The `for i in 0..height` loop of `verify`. `ctx` is the byte string fed
to the single `digest::Context` created before the loop: the source never
resets it, so each iteration appends 64 more bytes and `trace` is the digest
of everything accumulated so far (`ctx.clone().finish()`). -/
def verifyGo (proofL : List H256) (height leafNum : Nat) :
    Nat → Nat → Nat → Nat → List Nat → H256 → H256
  | 0 => fun _ _ _ _ trace => trace
  | remaining + 1 => fun i curIndex sequence ctx trace =>
      let group := (curIndex - sequence) / 2
      let ctx' :=
        if curIndex % 2 = 1 then ctx ++ serializeH256 (proofL.getD i 0) ++ serializeH256 trace
        else ctx ++ serializeH256 trace ++ serializeH256 (proofL.getD i 0)
      let sequence' := if i = 0 then sequence + leafNum else sequence + 2 ^ (height - i)
      verifyGo proofL height leafNum remaining (i + 1) (sequence' + group) sequence' ctx' (sha256 ctx')

/-- `verify(root, datum, proof, index, leaf_size)`. The source computes
`leaf_num = 2^h - (2^(h+1) - 1 - leaf_size)` in `usize`; an underflow in
either subtraction panics (debug semantics) — `none`. Inside the loop
`cur_index - sequence` never underflows (`cur_index` is always
`sequence + group`). -/
def merkleVerify (root datum : H256) (proofL : List H256) (index leaf_size : Nat) : Option Bool :=
  let height := proofL.length
  if 2 ^ (height + 1) - 1 < leaf_size then none
  else if 2 ^ height < 2 ^ (height + 1) - 1 - leaf_size then none
  else
    let leafNum := 2 ^ height - (2 ^ (height + 1) - 1 - leaf_size)
    some (verifyGo proofL height leafNum height 0 index 0 [] datum = root)

/-! ## Blockchain index (`src/blockchain.rs`) -/

/-- `Blockchain { blockmap, lengthmap, tip }`. -/
structure Blockchain where
  blockmap : List (H256 × Block)
  lengthmap : List (H256 × Nat)
  tip : H256
deriving DecidableEq, Repr

/-- The genesis difficulty target: a 32-byte value with bytes 2, 3 and 4 set
to 1 (big-endian), i.e. `256^29 + 256^28 + 256^27`. -/
def genesisDifficulty : H256 := 256 ^ 29 + 256 ^ 28 + 256 ^ 27

/-- Modelled from the spec: the merkle root stored in the genesis header.
The source computes it as `MerkleTree::new(&Vec::new()).root()`, and `root()`
on the empty tree fails (see the Merkle theorems below); the spec licenses an
all-zero empty root ("implementation may define an all-zero root"), which is
the value used here. No theorem in this file depends on the choice. -/
def genesisMerkleRoot : H256 := 0

/-- The genesis header built by `Blockchain::new`: zero parent, zero nonce,
the fixed difficulty, zero timestamp, empty-content merkle root. -/
def genesisHeader : Header :=
  { parent := 0, nonce := 0, difficulty := genesisDifficulty, timestamp := 0,
    merkle_root := genesisMerkleRoot }

/-- The genesis block (empty content). -/
def genesisBlock : Block := { header := genesisHeader, content := { data := [] } }

/-- The hash of the genesis block. -/
def genesisHash : H256 := hashBlock genesisBlock

/-- `Blockchain::new()`: maps seeded with genesis at height 0, tip = genesis. -/
def Blockchain.new : Blockchain :=
  { blockmap := [(genesisHash, genesisBlock)],
    lengthmap := [(genesisHash, 0)],
    tip := genesisHash }

/-- `Blockchain::insert(block)`. The source indexes `lengthmap[&prev]` and
`lengthmap[&self.tip]` without checking presence; a missing key panics —
`none`. The freshly inserted height `lengthmap[&block_hash]` is `hp + 1` by
the replace-in-place semantics of insertion. -/
def Blockchain.insert (c : Blockchain) (b : Block) : Option Blockchain :=
  let prev := b.header.parent
  let block_hash := hashBlock b
  match lookupA c.lengthmap prev with
  | none => none
  | some hp =>
      let blockmap := insertA c.blockmap block_hash b
      let lengthmap := insertA c.lengthmap block_hash (hp + 1)
      match lookupA lengthmap c.tip with
      | none => none
      | some ht => some { blockmap, lengthmap, tip := if ht < hp + 1 then block_hash else c.tip }

/-! ## UTXO state and mempool (`src/transaction.rs`) -/

/-- `State { utxo: HashMap<(H256, u8), (u64, H160)> }`. -/
structure State where
  utxo : List ((H256 × Nat) × (Nat × H160))
deriving DecidableEq, Repr

/-- `State::update(transaction)`: remove the entry of every input outpoint,
then insert an entry per output at `(transaction.hash(), idx)` — where
`transaction.hash()` is the single SHA-256 of the serialized
`SignedTransaction`. -/
def State.update (s : State) (t : SignedTransaction) : State :=
  let afterRemove :=
    t.transaction.input.foldl (fun u txin => removeA u (txin.previous_output, txin.index)) s.utxo
  let tx_hash := hashSignedTx t
  { utxo :=
      (t.transaction.output.foldl
        (fun (p : List ((H256 × Nat) × (Nat × H160)) × Nat) txout =>
          (insertA p.1 (tx_hash, p.2) (txout.value, txout.recipient), p.2 + 1))
        (afterRemove, 0)).1 }

/-- `Mempool { txmap: HashMap<H256, SignedTransaction> }`. -/
structure Mempool where
  txmap : List (H256 × SignedTransaction)
deriving DecidableEq, Repr

/-- `Mempool::insert`: keyed by the transaction hash. -/
def Mempool.insert (m : Mempool) (t : SignedTransaction) : Mempool :=
  { txmap := insertA m.txmap (hashSignedTx t) t }

/-- `Mempool::remove`: removal guarded by `contains_key` (a no-op when the
hash is absent, exactly as plain removal on an association list). -/
def Mempool.remove (m : Mempool) (t : SignedTransaction) : Mempool :=
  { txmap := removeA m.txmap (hashSignedTx t) }

/-! ## Gossip worker (`src/network/worker.rs`)

The Ed25519 primitive is an external collaborator; it enters as the function
parameter `edVerify pk msg sig`. Broadcast messages are accumulated in order;
only the broadcast variants used by the handlers are modelled. -/

/-- The broadcast messages issued by the worker and the miner. -/
inductive Msg where
  | NewBlockHashes (hashes : List H256)
  | NewTransactionHashes (hashes : List H256)
deriving DecidableEq, Repr

/-- The shared node state a worker mutates inside one message handler:
chain, orphan buffer (`parent hash → block`), mempool, UTXO state, plus the
list of messages passed to `server.broadcast` in order. -/
structure NodeState where
  chain : Blockchain
  buffer : List (H256 × Block)
  mempool : Mempool
  state : State
  broadcasts : List Msg
deriving DecidableEq, Repr

/-- The `for txin in input` loop of the worker's ownership check (step 2):
returns the final loop flag together with the accumulated `input_amount`.
A missing outpoint or a recipient not matching `address_of(pk)` breaks the
loop with the flag false; the matched amount is added before the recipient
comparison, as in the source. -/
def inputScan (utxo : List ((H256 × Nat) × (Nat × H160))) (pk : List Nat) :
    List TxIn → Nat → Bool × Nat
  | [], amount => (true, amount)
  | txin :: rest, amount =>
      match lookupA utxo (txin.previous_output, txin.index) with
      | some val =>
          if addressOf pk ≠ val.2 then (false, amount + val.1)
          else inputScan utxo pk rest (amount + val.1)
      | none => (false, amount)

/-- The worker's three-step transaction validation, as run by both the
`Transactions` handler and the block-accept pipeline: the Ed25519 signature
over the double-SHA txid, the per-input ownership scan, and the
`input_amount < output_amount` spending test. The loop only ever lowers the
flag, so the running flag is the conjunction with the previous steps. -/
def txCheck (edVerify : List Nat → List Nat → List Nat → Bool) (st : State)
    (t : SignedTransaction) : Bool :=
  let step1 := edVerify t.public_key (txidDigestBytes t.transaction) t.signature
  let scan := inputScan st.utxo t.public_key t.transaction.input 0
  let verify2 := step1 && scan.1
  let output_amount := (t.transaction.output.map (·.value)).sum
  if scan.2 < output_amount then false else verify2

/-- The orphan-flush loop as written at `worker.rs` lines 193-209: while the
buffer has an entry keyed by the last-inserted hash, remove it, strip its
transactions from the mempool, apply them to the state, insert it into the
chain and broadcast its hash — with no proof-of-work, difficulty or
transaction checks. Each iteration removes a buffer entry, so fuel
`buffer.length + 1` never runs out. This loop is dead code in the source:
control reaches line 193 only past the line-184 re-lock of the already-held
state mutex, which never returns (see `handleBlock`). The translation is kept
to document what the loop's text would do. -/
def flushLoop : Nat → Blockchain → List (H256 × Block) → Mempool → State → List Msg → H256 →
    Option NodeState
  | 0 => fun _ _ _ _ _ _ => none
  | fuel + 1 => fun chain buffer mempool state bcs h =>
      match extractA buffer h with
      | none => some ⟨chain, buffer, mempool, state, bcs⟩
      | some (orphan, buffer') =>
          let ms := orphan.content.data.foldl
            (fun (p : Mempool × State) t => (p.1.remove t, p.2.update t)) (mempool, state)
          match chain.insert orphan with
          | none => none
          | some chain' =>
              flushLoop fuel chain' buffer' ms.1 ms.2
                (bcs ++ [Msg.NewBlockHashes [hashBlock orphan]]) (hashBlock orphan)

/-- The block-accept pipeline run per received block by the `Blocks` handler:
known-hash drop; orphan buffering; proof-of-work and difficulty-consistency
test; transaction validation of the content. A block passing every check is
never applied: the source takes the `self.state` lock at `worker.rs` line 116
for the validation loop and, with that guard still live until the branch ends
at line 210 (the line-184 binding shadows it but does not drop it), locks
`self.state` again at line 184 — a same-thread `std::sync::Mutex` re-lock,
which never returns normally (it deadlocks or panics). Modelled as `none`,
like every other non-returning operation in this file. The mempool removal,
state update, chain insertion, broadcast and orphan flush of lines 185-209
are unreachable. An invalid transaction instead hits the `continue` at
line 181, which leaves the branch scope and releases the line-116 guard, so
that path (and the earlier drop/buffer/PoW paths, which never reach the
second lock) completes normally. -/
def handleBlock (edVerify : List Nat → List Nat → List Nat → Bool)
    (s : NodeState) (b : Block) : Option NodeState :=
  let h := hashBlock b
  if containsA s.chain.blockmap h then some s
  else if ¬ containsA s.chain.blockmap b.header.parent then
    some { s with buffer := insertA s.buffer b.header.parent b }
  else
    match lookupA s.chain.blockmap b.header.parent with
    | none => none
    | some parentBlock =>
        if h ≤ b.header.difficulty ∧ b.header.difficulty = parentBlock.header.difficulty then
          if b.content.data.all (txCheck edVerify s.state) then
            none
          else some s
        else some s

/-- The `Blocks(blocks)` handler: the pipeline over each delivered block. -/
def handleBlocks (edVerify : List Nat → List Nat → List Nat → Bool)
    (s : NodeState) (blocks : List Block) : Option NodeState :=
  blocks.foldl (fun acc b => acc.bind fun st => handleBlock edVerify st b) (some s)

/-- One transaction of the `Transactions` handler: if the three checks pass,
broadcast `NewTransactionHashes([hash])` and insert into the mempool;
otherwise leave everything unchanged. The UTXO state is only read. -/
def handleTx (edVerify : List Nat → List Nat → List Nat → Bool)
    (s : NodeState) (t : SignedTransaction) : NodeState :=
  if txCheck edVerify s.state t then
    { s with
        broadcasts := s.broadcasts ++ [Msg.NewTransactionHashes [hashSignedTx t]],
        mempool := s.mempool.insert t }
  else s

/-- The `Transactions(transactions)` handler (`worker.rs` lines 237-309). -/
def handleTransactions (edVerify : List Nat → List Nat → List Nat → Bool)
    (s : NodeState) (ts : List SignedTransaction) : NodeState :=
  ts.foldl (handleTx edVerify) s

/-! ## Miner (`src/miner.rs`)

One iteration of the mining loop, with the random nonce and the wall-clock
timestamp as inputs. The miner context (`miner.rs` lines 29-36) holds the
server handle, the chain and the mempool — it has no reference to the UTXO
state, so the `State` component passes through a mining step untouched. -/

/-- The greedy mempool selection: walk `txmap` in iteration order and stop at
the first transaction that would push the cumulative serialized size past the
2048-byte block limit. -/
def selectTxs (limit : Nat) : List (H256 × SignedTransaction) → Nat → List SignedTransaction
  | [], _ => []
  | (_, val) :: rest, block_size =>
      let m := serializeSignedTransaction val
      if block_size + m.length > limit then []
      else val :: selectTxs limit rest (block_size + m.length)

/-- The result of one miner iteration. -/
structure MinerOutcome where
  chain : Blockchain
  mempool : Mempool
  state : State
  broadcasts : List Msg
  mined : Option Block
deriving DecidableEq, Repr

/-- One iteration of `miner_loop`: read tip and difficulty, select
transactions, build the candidate block, and on `hash ≤ difficulty` remove
the selected transactions from the mempool, insert the block into the chain
and broadcast its hash. `blockmap[&parent]` and the merkle `root()` call can
panic (`none`): the latter fires whenever the selection is empty. -/
def minerStep (c : Blockchain) (mp : Mempool) (st : State) (nonce timestamp : Nat) :
    Option MinerOutcome :=
  let parent := c.tip
  match lookupA c.blockmap parent with
  | none => none
  | some pb =>
      let difficulty := pb.header.difficulty
      let transactions := selectTxs 2048 mp.txmap 0
      match (MerkleTree.new hashSignedTx transactions).bind MerkleTree.root with
      | none => none
      | some merkle_root =>
          let header : Header :=
            { parent, nonce, difficulty, timestamp, merkle_root }
          let cur_block : Block := { header, content := { data := transactions } }
          if hashBlock cur_block ≤ difficulty then
            let mp' := transactions.foldl Mempool.remove mp
            match c.insert cur_block with
            | none => none
            | some c' =>
                some ⟨c', mp', st, [Msg.NewBlockHashes [hashBlock cur_block]], some cur_block⟩
          else some ⟨c, mp, st, [], none⟩

/-! ## Specification-side definitions

Definitions in this section follow the wording of the specification (rather
than the source); they are compared against the source-translated functions
above by the theorems below. -/

/-- The sum of the utxo values referenced by a list of inputs (meaningful
when every input is present in the map). -/
def inputSum (utxo : List ((H256 × Nat) × (Nat × H160))) (inputs : List TxIn) : Nat :=
  (inputs.map fun txin => ((lookupA utxo (txin.previous_output, txin.index)).getD (0, 0)).1).sum

/-- The three validation checks of §4.5, stated directly: the Ed25519
signature over the double-SHA txid, every input present in the utxo with
recipient `address_of(pk)`, and input sum at least output sum. -/
def TxValid (edVerify : List Nat → List Nat → List Nat → Bool) (st : State)
    (t : SignedTransaction) : Bool :=
  edVerify t.public_key (txidDigestBytes t.transaction) t.signature
    && t.transaction.input.all (fun txin =>
        match lookupA st.utxo (txin.previous_output, txin.index) with
        | some val => addressOf t.public_key == val.2
        | none => false)
    && decide ((t.transaction.output.map (·.value)).sum ≤ inputSum st.utxo t.transaction.input)

/-- Hash of each adjacent pair of a row (the spec's "for each adjacent pair
`(a,b)` in the current row, append `sha256(a || b)`"). -/
def pairHash : List H256 → List H256
  | a :: b :: rest => sha256cat a b :: pairHash rest
  | _ => []

/-- The spec's row padding: duplicate the last element exactly when the
row's length is odd and not 1. -/
def padRowSpec (row : List H256) : List H256 :=
  if row.length % 2 = 1 ∧ row.length ≠ 1 then row ++ [row.getLast?.getD 0] else row

/-- Iterate the claimed row construction down to a single element. -/
def rowParityGo : Nat → List H256 → Option H256
  | 0, _ => none
  | _ + 1, [x] => some x
  | fuel + 1, row => rowParityGo fuel (padRowSpec (pairHash row))

/-- The Merkle root as described by §4.2 of the spec: every row (leaf row
included) padded by its own parity, adjacent pairs hashed upward. -/
def rowParityRoot (hashItem : α → H256) (data : List α) : Option H256 :=
  rowParityGo (data.length + 1) (padRowSpec (data.map hashItem))

/-- Claim C5 as stated: the source construction realizes the row-parity
padding rule, so on every non-empty input it succeeds and produces the
row-parity root. -/
def RowParityConstructionClaim : Prop :=
  ∀ data : List H256, data ≠ [] →
    ((MerkleTree.new hashH256 data).bind MerkleTree.root) = rowParityRoot hashH256 data

/-- Claim C1 as stated. The claim describes the block-accept pipeline of
which the orphan flush is step 7: a delivered block passing the earlier
checks — hash unknown, parent present, proof of work, difficulty
consistency, every transaction valid — is inserted ("after a block is
inserted", step 5), the handler completes, and each orphan flushed from the
buffer is re-subjected to steps 3-6 before being applied, so an orphan
failing the proof-of-work check is not inserted into the chain. -/
def OrphansRevalidatedClaim : Prop :=
  ∀ (edVerify : List Nat → List Nat → List Nat → Bool) (s : NodeState) (b pb : Block),
    containsA s.chain.blockmap (hashBlock b) = false →
    lookupA s.chain.blockmap b.header.parent = some pb →
    hashBlock b ≤ b.header.difficulty →
    b.header.difficulty = pb.header.difficulty →
    b.content.data.all (txCheck edVerify s.state) = true →
    ∃ s' : NodeState, handleBlocks edVerify s [b] = some s' ∧
      containsA s'.chain.blockmap (hashBlock b) = true ∧
      ∀ (key : H256) (orphan : Block),
        lookupA s.buffer key = some orphan →
        ¬ hashBlock orphan ≤ orphan.header.difficulty →
        containsA s.chain.blockmap (hashBlock orphan) = false →
        containsA s'.chain.blockmap (hashBlock orphan) = false

/-- Claim C2 as stated: when a candidate block meets the difficulty, the
miner removes the selected transactions from the mempool, applies them to
the UTXO state, inserts the block and broadcasts its hash. -/
def MinerC2Claim : Prop :=
  ∀ (c : Blockchain) (mp : Mempool) (st : State) (nonce timestamp : Nat)
    (r : MinerOutcome) (b : Block),
    minerStep c mp st nonce timestamp = some r →
    r.mined = some b →
    r.mempool = b.content.data.foldl Mempool.remove mp ∧
    r.state = b.content.data.foldl State.update st ∧
    c.insert b = some r.chain ∧
    r.broadcasts = [Msg.NewBlockHashes [hashBlock b]]

/-- Claim C3 as stated: `State::update` removes the input outpoints and
inserts the outputs keyed by the canonical txid,
SHA-256(SHA-256(serialize(Transaction))). -/
def UpdateCanonicalTxidClaim : Prop :=
  ∀ (s : State) (t : SignedTransaction),
    (s.update t).utxo =
      (t.transaction.output.foldl
        (fun (p : List ((H256 × Nat) × (Nat × H160)) × Nat) txout =>
          (insertA p.1 (txidCanonical t.transaction, p.2) (txout.value, txout.recipient), p.2 + 1))
        (t.transaction.input.foldl
          (fun u txin => removeA u (txin.previous_output, txin.index)) s.utxo, 0)).1

/-- The chain invariant of claim C8: every non-genesis block has its parent
in the map with height one less, and the tip attains the maximum height. -/
@[reducible] def ChainInv (c : Blockchain) : Prop :=
  (∀ p ∈ c.blockmap, p.1 ≠ genesisHash →
      containsA c.blockmap p.2.header.parent = true ∧
      lookupA c.lengthmap p.1 = (lookupA c.lengthmap p.2.header.parent).map (· + 1)) ∧
  containsA c.lengthmap c.tip = true ∧
  ∀ q ∈ c.lengthmap, q.2 ≤ (lookupA c.lengthmap c.tip).getD 0

/-- Auxiliary strengthening of `ChainInv` closed under insertion: the two
maps share their key list and genesis is present. -/
@[reducible] def StrongInv (c : Blockchain) : Prop :=
  ChainInv c ∧
  c.blockmap.map Prod.fst = c.lengthmap.map Prod.fst ∧
  containsA c.blockmap genesisHash = true

/-- Precondition of one insertion step: the parent is present, and the
block's hash is new (the worker's step-1 drop guarantees this; it also rules
out hash collisions between distinct blocks). -/
@[reducible] def InsertPre (c : Blockchain) (b : Block) : Prop :=
  containsA c.blockmap b.header.parent = true ∧
  containsA c.blockmap (hashBlock b) = false

/-- A sequence of insertions, failing if any single insertion panics. -/
def insertSeq (c : Blockchain) : List Block → Option Blockchain
  | [] => some c
  | b :: bs => (c.insert b).bind fun c' => insertSeq c' bs

/-- Every step of the sequence satisfies `InsertPre` at its own state. -/
def SeqPre (c : Blockchain) : List Block → Prop
  | [] => True
  | b :: bs => InsertPre c b ∧ ∀ c', c.insert b = some c' → SeqPre c' bs

/-! ## Concrete scenario constants

Closed inputs used by counterexamples and witnesses. `PW` plays the role of
an already-accepted block with a maximal difficulty target, so that blocks
mined on it pass the proof-of-work test with any nonce. -/

/-- A block with the all-ones difficulty target (every hash passes PoW). -/
def PW : Block :=
  { header := { parent := 0, nonce := 0, difficulty := 2 ^ 256 - 1, timestamp := 0,
                merkle_root := 0 },
    content := { data := [] } }

/-- The hash of `PW`. -/
def hPW : H256 := hashBlock PW

/-- A chain whose only block is `PW`, at height 0. -/
def chainW : Blockchain := { blockmap := [(hPW, PW)], lengthmap := [(hPW, 0)], tip := hPW }

/-- A block on top of `PW`, same (maximal) difficulty: it passes both the
PoW and the difficulty-consistency check. -/
def B1W : Block :=
  { header := { parent := hPW, nonce := 1, difficulty := 2 ^ 256 - 1, timestamp := 0,
                merkle_root := 0 },
    content := { data := [] } }

/-- A child of `B1W` with difficulty target 0: it fails the proof-of-work
check (its hash is not 0) and the difficulty-consistency check (0 is not the
parent difficulty). -/
def BbadW : Block :=
  { header := { parent := hashBlock B1W, nonce := 2, difficulty := 0, timestamp := 0,
                merkle_root := 0 },
    content := { data := [] } }

/-- A trivial Ed25519 model accepting everything (the scenario blocks carry
no transactions, so it is never consulted). -/
def edv0 : List Nat → List Nat → List Nat → Bool := fun _ _ _ => true

/-- Node state holding `chainW` with `BbadW` waiting in the orphan buffer
under key `hash(B1W)`. -/
def s1W : NodeState :=
  { chain := chainW, buffer := [(hashBlock B1W, BbadW)], mempool := { txmap := [] },
    state := { utxo := [] }, broadcasts := [] }

/-- `chainW` after inserting `B1W` (used by the dead-code flush check). -/
def chainWB1 : Blockchain := (chainW.insert B1W).getD chainW

/-- The state delivered by running the flush-loop text on a buffer holding
`BbadW` keyed by `hash(B1W)`. -/
def flushResW : NodeState :=
  (flushLoop 2 chainWB1 [(hashBlock B1W, BbadW)] { txmap := [] } { utxo := [] } []
    (hashBlock B1W)).getD s1W

/-- A signed transaction with no inputs, one output of value 5 to address 0,
and empty key and signature bytes (60 serialized bytes). -/
def txA : SignedTransaction :=
  { transaction := { input := [], output := [{ recipient := 0, value := 5 }] },
    public_key := [], signature := [] }

/-- A mempool holding exactly `txA`. -/
def mpW : Mempool := { txmap := [(hashSignedTx txA, txA)] }

/-- An empty UTXO state. -/
def stEmpty : State := { utxo := [] }

/-- The block the miner assembles from `chainW` and `mpW` with nonce 1 and
timestamp 0. -/
def blkMinedW : Block :=
  { header := { parent := hPW, nonce := 1, difficulty := 2 ^ 256 - 1, timestamp := 0,
                merkle_root := hashSignedTx txA },
    content := { data := [txA] } }

/-- The outcome of that miner iteration. -/
def rMinedW : MinerOutcome :=
  (minerStep chainW mpW stEmpty 1 0).getD ⟨chainW, mpW, stEmpty, [], none⟩

/-- Four distinct Merkle leaves (as `H256` values 1..4). -/
def leaves4 : List H256 := [1, 2, 3, 4]

/-- Two distinct Merkle leaves. -/
def leaves2 : List H256 := [10, 11]

/-- Six distinct Merkle leaves: the interior row of length 3 arising from
them makes `MerkleTree::new` read out of bounds. -/
def leaves6 : List H256 := [1, 2, 3, 4, 5, 6]

/-- A block whose parent is the genesis block of `Blockchain::new` (inserted
by the `Blockchain` witnesses). -/
def blkChild : Block :=
  { header := { parent := genesisHash, nonce := 7, difficulty := genesisDifficulty,
                timestamp := 1, merkle_root := 0 },
    content := { data := [] } }

/-- `Blockchain::new` after inserting `blkChild`. -/
def chainChild : Blockchain := (Blockchain.new.insert blkChild).getD Blockchain.new

/-- The chain delivered by the insertion sequence `[blkChild]` from
`Blockchain::new` (used by the C8 witness). -/
def chainSeqW : Blockchain := (insertSeq Blockchain.new [blkChild]).getD Blockchain.new

/-- A block whose parent hash (999) is in no map: inserting it panics. -/
def blkOrphanW : Block :=
  { header := { parent := 999, nonce := 3, difficulty := genesisDifficulty, timestamp := 2,
                merkle_root := 0 },
    content := { data := [] } }

/-- A one-entry UTXO state for the `State::update` witness. -/
def stC3 : State := { utxo := [((7, 0), (9, 3))] }

/-- A transaction spending the single entry of `stC3` into two outputs. -/
def txB : SignedTransaction :=
  { transaction := { input := [{ previous_output := 7, index := 0 }],
                     output := [{ recipient := 1, value := 4 }, { recipient := 2, value := 5 }] },
    public_key := [6], signature := [8] }

/-! ## Association-list lemmas -/

theorem lookupA_insertA_self [DecidableEq κ] (l : List (κ × β)) (k : κ) (v : β) :
    lookupA (insertA l k v) k = some v := by
  induction l with
  | nil => simp [insertA, lookupA]
  | cons p t ih =>
      obtain ⟨k', v'⟩ := p
      by_cases h : k' = k
      · simp [insertA, h, lookupA]
      · simp [insertA, h, lookupA, ih]

theorem lookupA_insertA_ne [DecidableEq κ] (l : List (κ × β)) (k k₂ : κ) (v : β)
    (h : k₂ ≠ k) : lookupA (insertA l k v) k₂ = lookupA l k₂ := by
  have hne : ¬ k = k₂ := fun hh => h hh.symm
  induction l with
  | nil => simp [insertA, lookupA, hne]
  | cons p t ih =>
      obtain ⟨k', v'⟩ := p
      by_cases hk : k' = k
      · subst hk
        have hne : ¬ k' = k₂ := fun hh => h hh.symm
        simp [insertA, lookupA, hne]
      · by_cases hk2 : k' = k₂ <;> simp [insertA, lookupA, hk, hk2, h, ih]

theorem insertA_insertA_same [DecidableEq κ] (l : List (κ × β)) (k : κ) (v : β) :
    insertA (insertA l k v) k v = insertA l k v := by
  induction l with
  | nil => simp [insertA]
  | cons p t ih =>
      obtain ⟨k', v'⟩ := p
      by_cases h : k' = k
      · simp [insertA, h]
      · simp [insertA, h, ih]

theorem mem_insertA [DecidableEq κ] (l : List (κ × β)) (k : κ) (v : β) (p : κ × β) :
    p ∈ insertA l k v → p = (k, v) ∨ p ∈ l := by
  induction l with
  | nil => intro hp; simpa [insertA] using hp
  | cons q t ih =>
      obtain ⟨k', v'⟩ := q
      intro hp
      by_cases h : k' = k
      · rw [show insertA ((k', v') :: t) k v = (k, v) :: t by simp [insertA, h]] at hp
        rcases List.mem_cons.1 hp with hp | hp
        · exact Or.inl hp
        · exact Or.inr (List.mem_cons_of_mem _ hp)
      · rw [show insertA ((k', v') :: t) k v = (k', v') :: insertA t k v by
              simp [insertA, h]] at hp
        rcases List.mem_cons.1 hp with hp | hp
        · exact Or.inr (hp ▸ List.mem_cons_self _ _)
        · rcases ih hp with hh | hh
          · exact Or.inl hh
          · exact Or.inr (List.mem_cons_of_mem _ hh)

theorem containsA_eq_mem_keys [DecidableEq κ] (l : List (κ × β)) (k : κ) :
    containsA l k = true ↔ k ∈ l.map Prod.fst := by
  induction l with
  | nil => simp [containsA, lookupA]
  | cons p t ih =>
      obtain ⟨k', v'⟩ := p
      by_cases h : k' = k
      · simp [containsA, lookupA, h]
      · have hne : ¬ k = k' := fun hh => h hh.symm
        simp only [containsA, lookupA, if_neg h, List.map_cons, List.mem_cons] at ih ⊢
        simp [hne, ih]

theorem containsA_congr_keys [DecidableEq κ] (l : List (κ × β)) (l' : List (κ × γ))
    (hk : l.map Prod.fst = l'.map Prod.fst) (k : κ) : containsA l k = containsA l' k := by
  rcases hcl : containsA l' k with _ | _
  · rcases hc : containsA l k with _ | _
    · rfl
    · exact absurd (((containsA_eq_mem_keys l' k).2 (hk ▸ (containsA_eq_mem_keys l k).1 hc)))
        (by simp [hcl])
  · exact (containsA_eq_mem_keys l k).2 (hk ▸ (containsA_eq_mem_keys l' k).1 hcl)

theorem containsA_insertA_mono [DecidableEq κ] (l : List (κ × β)) (k k₂ : κ) (v : β)
    (h : containsA l k₂ = true) : containsA (insertA l k v) k₂ = true := by
  by_cases hk : k₂ = k
  · subst hk; simp [containsA, lookupA_insertA_self]
  · simpa [containsA, lookupA_insertA_ne l k k₂ v hk] using h

theorem containsA_insertA_self [DecidableEq κ] (l : List (κ × β)) (k : κ) (v : β) :
    containsA (insertA l k v) k = true := by
  simp [containsA, lookupA_insertA_self]

theorem keys_insertA_fresh [DecidableEq κ] (l : List (κ × β)) (k : κ) (v : β)
    (h : containsA l k = false) :
    (insertA l k v).map Prod.fst = l.map Prod.fst ++ [k] := by
  induction l with
  | nil => simp [insertA]
  | cons p t ih =>
      obtain ⟨k', v'⟩ := p
      by_cases hk : k' = k
      · simp [containsA, lookupA, hk] at h
      · simp only [containsA, lookupA, if_neg hk] at h
        simp [insertA, hk, ih h]

theorem lookupA_eq_none_of_not_mem_keys [DecidableEq κ] (l : List (κ × β)) (k : κ)
    (h : k ∉ l.map Prod.fst) : lookupA l k = none := by
  induction l with
  | nil => rfl
  | cons p t ih =>
      obtain ⟨k', v'⟩ := p
      simp only [List.map_cons, List.mem_cons] at h
      push_neg at h
      have hne : ¬ k' = k := fun hh => h.1 hh.symm
      simp [lookupA, hne, ih h.2]

theorem lookupA_removeA_ne [DecidableEq κ] (l : List (κ × β)) (k k₂ : κ) (h : k₂ ≠ k) :
    lookupA (removeA l k) k₂ = lookupA l k₂ := by
  induction l with
  | nil => rfl
  | cons p t ih =>
      obtain ⟨k', v'⟩ := p
      by_cases hk : k' = k
      · subst hk
        have hne : ¬ k' = k₂ := fun hh => h hh.symm
        simp [removeA, lookupA, hne]
      · by_cases hk2 : k' = k₂ <;> simp [removeA, lookupA, hk, hk2, h, ih]

theorem keys_removeA_sublist [DecidableEq κ] (l : List (κ × β)) (k : κ) :
    ((removeA l k).map Prod.fst).Sublist (l.map Prod.fst) := by
  induction l with
  | nil => simp [removeA]
  | cons p t ih =>
      obtain ⟨k', v'⟩ := p
      by_cases hk : k' = k
      · simp [removeA, hk]
  
      · simpa [removeA, hk] using ih.cons₂ k'

theorem lookupA_removeA_self [DecidableEq κ] (l : List (κ × β)) (k : κ)
    (h : (l.map Prod.fst).Nodup) : lookupA (removeA l k) k = none := by
  induction l with
  | nil => rfl
  | cons p t ih =>
      obtain ⟨k', v'⟩ := p
      simp only [List.map_cons, List.nodup_cons] at h
      by_cases hk : k' = k
      · subst hk
        simpa [removeA] using lookupA_eq_none_of_not_mem_keys t k' h.1
      · simp [removeA, lookupA, hk, ih h.2]

theorem nodup_keys_removeA [DecidableEq κ] (l : List (κ × β)) (k : κ)
    (h : (l.map Prod.fst).Nodup) : ((removeA l k).map Prod.fst).Nodup :=
  h.sublist (keys_removeA_sublist l k)

/-! ## Claim theorems -/

/-- C4 (code bug): the Merkle round trip fails on four leaves — `verify`
over the proof produced by `proof(0)` returns `false` (the digest context
accumulates across levels and the reconstructed leaf count is wrong), while
on two leaves (the shape the repository's own test exercises) it still
returns `true`. The claim demands `true` for every `i < n`. -/
theorem merkle_roundtrip_fails_at_four_leaves :
    ((MerkleTree.new hashH256 leaves4).bind fun t =>
      (t.proof 0).bind fun p => t.root.bind fun r =>
        merkleVerify r (hashH256 1) p 0 4) = some false
  ∧ ((MerkleTree.new hashH256 leaves2).bind fun t =>
      (t.proof 0).bind fun p => t.root.bind fun r =>
        merkleVerify r (hashH256 10) p 0 2) = some true := by
  exact ⟨by decide!, by decide!⟩

/-- C6 (code bug, `n = 0` part): `root()` on the tree of the empty list
fails — the buffer is empty and `tree[tree.len()-1]` panics — instead of
returning a defined empty root; the `n = 1` part of the claim holds: the
tree over one leaf is exactly its leaf hash, with no duplication, and
`root()` returns it. -/
theorem merkle_empty_root_fails_single_leaf_ok :
    ((MerkleTree.new hashH256 ([] : List H256)).bind MerkleTree.root = none)
  ∧ ∀ x : H256, (MerkleTree.new hashH256 [x]).map (fun t => (t.tree, t.root)) =
      some ([hashH256 x], some (hashH256 x)) := by
  exact ⟨by decide!, fun x => rfl⟩

/-- C10 (confirmed): `Blockchain::insert` never checks its precondition;
when the parent is not in the maps, the `lengthmap[&prev]` lookup has no
value and the call fails (panics) rather than returning an error or leaving
the chain unchanged. -/
theorem insert_missing_parent_panics
    (c : Blockchain) (b : Block)
    (hkeys : c.blockmap.map Prod.fst = c.lengthmap.map Prod.fst)
    (hparent : containsA c.blockmap b.header.parent = false) :
    c.insert b = none := by
  have hcg := containsA_congr_keys c.blockmap c.lengthmap hkeys b.header.parent
  rw [hparent] at hcg
  have hnone : lookupA c.lengthmap b.header.parent = none := by
    cases hl : lookupA c.lengthmap b.header.parent with
    | none => rfl
    | some v => rw [containsA, hl] at hcg; simp at hcg
  simp [Blockchain.insert, hnone]

/-- Witness for C10 at a concrete chain and block. -/
theorem insert_missing_parent_panics_witness :
    Blockchain.new.insert blkOrphanW = none :=
  insert_missing_parent_panics Blockchain.new blkOrphanW (by decide!) (by decide!)

/-- C1 (counterexample): `B1W` delivered to `s1W` passes every check — fresh
hash, parent `PW` present, proof of work and difficulty consistency under the
all-ones target, an empty (vacuously valid) transaction list — yet
`handleBlocks edv0 s1W [B1W] = none`: the handler re-locks the state mutex it
already holds and never completes, so no block is inserted and no orphan is
ever flushed, refuting the claim's description of the pipeline. -/
theorem orphan_flush_counterexample : ¬ OrphansRevalidatedClaim := by
  intro hcl
  obtain ⟨s', hs', -⟩ := hcl edv0 s1W B1W PW (by decide!) (by decide!) (by decide!)
    (by decide!) (by decide!)
  have hnone : handleBlocks edv0 s1W [B1W] = none := by decide!
  rw [hnone] at hs'
  exact Option.noConfusion hs'

/-- C2 (counterexample): the miner iteration on `chainW`/`mpW` succeeds
(`hash ≤ difficulty` with the all-ones target) yet leaves the UTXO state
untouched, refuting the claim that the miner applies the selected
transactions to state. -/
theorem miner_no_state_application_counterexample : ¬ MinerC2Claim := by
  intro hcl
  have h := hcl chainW mpW stEmpty 1 0 rMinedW blkMinedW (by decide!) (by decide!)
  exact absurd h.2.1 (by decide!)

/-- C3 (counterexample): `State::update` keys the new entries by the single
SHA-256 of the serialized `SignedTransaction`, not by the canonical double
SHA-256 txid of the `Transaction`; the two differ at `txA`. -/
theorem update_canonical_txid_counterexample : ¬ UpdateCanonicalTxidClaim := by
  intro hcl
  have h := hcl stEmpty txA
  exact absurd h (by decide!)

/-- C5 (counterexample): the construction does not implement the row-parity
padding rule — on six leaves the interior row of length 3 is not padded
(`data.len()` is even) and the pairing loop reads out of bounds, so
`MerkleTree::new` fails where the row-parity construction succeeds. -/
theorem merkle_rowparity_counterexample : ¬ RowParityConstructionClaim := by
  intro hcl
  have h := hcl leaves6 (by decide)
  exact absurd h (by decide!)

/-- `Blockchain::insert` puts the inserted block's hash into the block map. -/
theorem insert_contains_self (c : Blockchain) (b : Block) (c' : Blockchain)
    (h : c.insert b = some c') : containsA c'.blockmap (hashBlock b) = true := by
  simp only [Blockchain.insert] at h
  split at h
  · simp at h
  · split at h
    · simp at h
    · injection h with h2
      rw [← h2]
      exact containsA_insertA_self c.blockmap (hashBlock b) b

/-- `Blockchain::insert` never removes a hash from the block map. -/
theorem insert_contains_mono (c : Blockchain) (b : Block) (c' : Blockchain) (k : H256)
    (h : c.insert b = some c') (hk : containsA c.blockmap k = true) :
    containsA c'.blockmap k = true := by
  simp only [Blockchain.insert] at h
  split at h
  · simp at h
  · split at h
    · simp at h
    · injection h with h2
      rw [← h2]
      exact containsA_insertA_mono c.blockmap (hashBlock b) k b hk

/-- Once a hash is in the chain, the rest of the flush loop keeps it there. -/
theorem flushLoop_contains_mono :
    ∀ (fuel : Nat) (chain : Blockchain) (buffer : List (H256 × Block)) (mempool : Mempool)
      (st : State) (bcs : List Msg) (h : H256) (s' : NodeState) (k : H256),
      flushLoop fuel chain buffer mempool st bcs h = some s' →
      containsA chain.blockmap k = true →
      containsA s'.chain.blockmap k = true := by
  intro fuel
  induction fuel with
  | zero => intro chain buffer mempool st bcs h s' k hf _; simp [flushLoop] at hf
  | succ n ih =>
      intro chain buffer mempool st bcs h s' k hf hc
      simp only [flushLoop] at hf
      cases hx : extractA buffer h with
      | none =>
          rw [hx] at hf
          simp only [Option.some.injEq] at hf
          rw [← hf]
          exact hc
      | some pr =>
          obtain ⟨orphan, buffer'⟩ := pr
          rw [hx] at hf
          cases hin : chain.insert orphan with
          | none => simp only [hin] at hf; simp at hf
          | some chain2 =>
              simp only [hin] at hf
              exact ih chain2 buffer' _ _ _ _ s' k hf
                (insert_contains_mono chain orphan chain2 k hin hc)

/-- Dead-code analysis of the flush loop's text (never reached in the
source, see `handleBlock`): an orphan waiting in the buffer under the
flushed key would be applied directly — its hash ends up in the chain —
with no hypothesis about its proof of work, its difficulty, or the validity
of its transactions. -/
theorem flushLoop_text_applies_orphan_unchecked
    (fuel : Nat) (chain : Blockchain) (buffer : List (H256 × Block)) (mempool : Mempool)
    (st : State) (bcs : List Msg) (h : H256) (orphan : Block) (rest : List (H256 × Block))
    (s' : NodeState)
    (hx : extractA buffer h = some (orphan, rest))
    (hf : flushLoop fuel chain buffer mempool st bcs h = some s') :
    containsA s'.chain.blockmap (hashBlock orphan) = true := by
  cases fuel with
  | zero => simp [flushLoop] at hf
  | succ n =>
      simp only [flushLoop] at hf
      rw [hx] at hf
      cases hin : chain.insert orphan with
      | none => simp only [hin] at hf; simp at hf
      | some chain2 =>
          simp only [hin] at hf
          exact flushLoop_contains_mono n chain2 rest _ _ _ _ s' (hashBlock orphan) hf
            (insert_contains_self chain orphan chain2 hin)

/-- Concrete check of the dead-code analysis: the flush-loop text run on a
buffer holding `BbadW` — failing both the proof-of-work and the difficulty
checks — inserts it into the chain. -/
theorem flushLoop_text_applies_orphan_unchecked_check :
    flushLoop 2 chainWB1 [(hashBlock B1W, BbadW)] { txmap := [] } { utxo := [] } []
      (hashBlock B1W) = some flushResW ∧
    containsA flushResW.chain.blockmap (hashBlock BbadW) = true :=
  ⟨by decide!,
   flushLoop_text_applies_orphan_unchecked 2 chainWB1 [(hashBlock B1W, BbadW)] { txmap := [] }
     { utxo := [] } [] (hashBlock B1W) BbadW [] flushResW (by decide!) (by decide!)⟩

/-- C1 (amended): a delivered block passing every check of the accept
pipeline — hash fresh, parent present, proof of work, difficulty
consistency, all content transactions valid — deadlocks the handler:
`worker.rs` locks `self.state` at line 116 for the validation loop and,
with that guard still held, locks it again at line 184, so the block is
never applied or inserted, nothing is broadcast, and the orphan-flush loop
(lines 193-209) is unreachable: no orphan is ever flushed, re-validated or
inserted by the handler. -/
theorem valid_block_deadlocks_handler
    (edVerify : List Nat → List Nat → List Nat → Bool) (s : NodeState) (b pb : Block)
    (hfresh : containsA s.chain.blockmap (hashBlock b) = false)
    (hparent : lookupA s.chain.blockmap b.header.parent = some pb)
    (hpow : hashBlock b ≤ b.header.difficulty)
    (hdiff : b.header.difficulty = pb.header.difficulty)
    (htx : b.content.data.all (txCheck edVerify s.state) = true) :
    handleBlock edVerify s b = none := by
  have hpc : containsA s.chain.blockmap b.header.parent = true := by
    simp [containsA, hparent]
  have hpow2 : hashBlock b ≤ pb.header.difficulty := hdiff ▸ hpow
  simp [handleBlock, hfresh, hpc, hparent, hpow, hpow2, hdiff, htx]

/-- Witness for the amended C1: the fully valid block `B1W` delivered to
`s1W` deadlocks the handler. -/
theorem valid_block_deadlocks_handler_witness :
    handleBlock edv0 s1W B1W = none :=
  valid_block_deadlocks_handler edv0 s1W B1W PW (by decide!) (by decide!) (by decide!)
    (by decide!) (by decide!)

/-- C2 (amended): on a successful iteration the miner removes the selected
transactions from the mempool, inserts the assembled block into the chain
and broadcasts its hash — and the UTXO state passes through unchanged (the
miner context holds no state reference). -/
theorem miner_actions_on_success
    (c : Blockchain) (mp : Mempool) (st : State) (nonce timestamp : Nat)
    (r : MinerOutcome) (b : Block)
    (hr : minerStep c mp st nonce timestamp = some r)
    (hm : r.mined = some b) :
    b.content.data = selectTxs 2048 mp.txmap 0 ∧
    r.mempool = b.content.data.foldl Mempool.remove mp ∧
    c.insert b = some r.chain ∧
    r.broadcasts = [Msg.NewBlockHashes [hashBlock b]] ∧
    r.state = st := by
  simp only [minerStep] at hr
  split at hr
  · simp at hr
  · split at hr
    · simp at hr
    · split at hr
      · split at hr
        · simp at hr
        · injection hr with hr2
          subst hr2
          simp only at hm
          injection hm with hm2
          subst hm2
          rename_i hins
          exact ⟨rfl, rfl, hins, rfl, rfl⟩
      · injection hr with hr2
        subst hr2
        simp at hm

/-- Witness for the amended C2 at the concrete mining scenario. -/
theorem miner_actions_on_success_witness :
    rMinedW.mempool = blkMinedW.content.data.foldl Mempool.remove mpW ∧
    rMinedW.state = stEmpty :=
  ⟨(miner_actions_on_success chainW mpW stEmpty 1 0 rMinedW blkMinedW (by decide!)
      (by decide!)).2.1,
   (miner_actions_on_success chainW mpW stEmpty 1 0 rMinedW blkMinedW (by decide!)
      (by decide!)).2.2.2.2⟩

/-- C7 (confirmed): `Blockchain::insert` is idempotent — a second insertion
of the same block leaves the maps and the tip exactly as after the first —
and ties are first-seen: a block whose resulting height does not exceed the
current tip's height leaves the tip unchanged. (The block is required not to
be its own parent; a self-parent would need `hash(b) = b.parent`, a SHA-256
fixed point.) -/
theorem blockchain_insert_idempotent_ties
    (c : Blockchain) (b : Block) (c' : Blockchain)
    (h : c.insert b = some c')
    (hsp : b.header.parent ≠ hashBlock b) :
    c'.insert b = some c' ∧
    (∀ hb ht, lookupA c'.lengthmap (hashBlock b) = some hb →
      lookupA c.lengthmap c.tip = some ht → hb ≤ ht → c'.tip = c.tip) := by
  simp only [Blockchain.insert] at h
  split at h
  · simp at h
  case _ hpv hp =>
    split at h
    · simp at h
    case _ htv ht =>
      injection h with h2
      subst h2
      constructor
      · have hp2 : lookupA (insertA c.lengthmap (hashBlock b) (hpv + 1)) b.header.parent
            = some hpv := by
          rw [lookupA_insertA_ne _ _ _ _ hsp]; exact hp
        simp only [Blockchain.insert, hp2, insertA_insertA_same]
        by_cases hlt : htv < hpv + 1
        · simp only [if_pos hlt, lookupA_insertA_self]
          simp
        · simp only [if_neg hlt]
          rw [ht]
          simp [hlt]
      · intro hbv htv2 hlb hlt2 hle
        simp only at hlb
        rw [lookupA_insertA_self] at hlb
        injection hlb with hlb2
        subst hlb2
        by_cases hteq : c.tip = hashBlock b
        · rw [hteq, lookupA_insertA_self] at ht
          injection ht with ht2
          simp only
          rw [if_neg (by omega)]
        · rw [lookupA_insertA_ne _ _ _ _ hteq, hlt2] at ht
          injection ht with ht2
          simp only
          rw [if_neg (by omega)]

/-- Witness for C7: inserting a child of genesis twice equals inserting it
once. -/
theorem blockchain_insert_idempotent_ties_witness :
    Blockchain.new.insert blkChild = some chainChild ∧
    chainChild.insert blkChild = some chainChild :=
  ⟨by decide!,
   (blockchain_insert_idempotent_ties Blockchain.new blkChild chainChild (by decide!)
     (by decide!)).1⟩

/-- The worker's input loop computes exactly the per-input ownership
conjunction, and — when it passes — the sum of the referenced values. -/
theorem inputScan_spec (utxo : List ((H256 × Nat) × (Nat × H160))) (pk : List Nat) :
    ∀ (inputs : List TxIn) (amount : Nat),
      ((inputScan utxo pk inputs amount).1 =
        inputs.all fun txin =>
          match lookupA utxo (txin.previous_output, txin.index) with
          | some val => addressOf pk == val.2
          | none => false)
    ∧ ((inputScan utxo pk inputs amount).1 = true →
        (inputScan utxo pk inputs amount).2 = amount + inputSum utxo inputs) := by
  intro inputs
  induction inputs with
  | nil => intro amount; exact ⟨by simp [inputScan], by simp [inputScan, inputSum]⟩
  | cons txin rest ih =>
      intro amount
      cases hl : lookupA utxo (txin.previous_output, txin.index) with
      | none =>
          constructor
          · simp [inputScan, hl, List.all_cons]
          · intro hcontra
            simp [inputScan, hl] at hcontra
      | some val =>
          by_cases haddr : addressOf pk ≠ val.2
          · constructor
            · simp [inputScan, hl, haddr, List.all_cons]
            · intro hcontra
              simp [inputScan, hl, haddr] at hcontra
          · push_neg at haddr
            have hbeq : (addressOf pk == val.2) = true := beq_iff_eq.2 haddr
            constructor
            · simp [inputScan, hl, haddr, List.all_cons, hbeq, (ih (amount + val.1)).1]
            · intro hok
              simp only [inputScan, hl] at hok ⊢
              rw [if_neg (by simp [haddr])] at hok ⊢
              rw [(ih (amount + val.1)).2 hok]
              simp [inputSum, hl]
              omega

/-- The worker's three-step check agrees with the spec's `TxValid`. -/
theorem txCheck_eq_TxValid (edVerify : List Nat → List Nat → List Nat → Bool)
    (st : State) (t : SignedTransaction) :
    txCheck edVerify st t = TxValid edVerify st t := by
  obtain ⟨hall, hamt⟩ := inputScan_spec st.utxo t.public_key t.transaction.input 0
  simp only [txCheck, TxValid]
  cases hs1 : (inputScan st.utxo t.public_key t.transaction.input 0).1 with
  | false =>
      rw [hs1] at hall
      rw [← hall]
      simp
  | true =>
      rw [hs1] at hall hamt
      have hsum := hamt rfl
      simp only [Nat.zero_add] at hsum
      rw [← hall, hsum]
      by_cases hlt : inputSum st.utxo t.transaction.input <
          (t.transaction.output.map (·.value)).sum
      · rw [if_pos hlt]
        have hle : ¬ ((t.transaction.output.map (·.value)).sum ≤
            inputSum st.utxo t.transaction.input) := by omega
        simp [hle]
      · rw [if_neg hlt]
        have hle : (t.transaction.output.map (·.value)).sum ≤
            inputSum st.utxo t.transaction.input := by omega
        simp [hle]

/-- C9 (confirmed): the `Transactions` handler inserts a received signed
transaction into the mempool and broadcasts `NewTransactionHashes([hash])`
exactly when the three checks of §4.5 pass (`TxValid`); otherwise mempool,
state and broadcasts are all unchanged — and the UTXO state is never
modified in either case. -/
theorem transactions_handler_inserts_iff_valid
    (edVerify : List Nat → List Nat → List Nat → Bool) (s : NodeState)
    (t : SignedTransaction) :
    handleTransactions edVerify s [t] =
      if TxValid edVerify s.state t then
        { s with
            broadcasts := s.broadcasts ++ [Msg.NewTransactionHashes [hashSignedTx t]],
            mempool := s.mempool.insert t }
      else s := by
  simp [handleTransactions, handleTx, txCheck_eq_TxValid]

/-- Folding removals over keys not equal to `k` leaves `k`'s entry alone. -/
theorem lookupA_foldl_removeA_not_mem (inputs : List TxIn) :
    ∀ (u : List ((H256 × Nat) × (Nat × H160))) (k : H256 × Nat),
      k ∉ (inputs.map fun txin => (txin.previous_output, txin.index)) →
      lookupA (inputs.foldl (fun u txin => removeA u (txin.previous_output, txin.index)) u) k
        = lookupA u k := by
  induction inputs with
  | nil => intro u k _; rfl
  | cons txin rest ih =>
      intro u k hk
      simp only [List.map_cons, List.mem_cons] at hk
      push_neg at hk
      simp only [List.foldl_cons]
      rw [ih _ k hk.2, lookupA_removeA_ne _ _ _ hk.1]

/-- Folding removals preserves key distinctness. -/
theorem nodup_keys_foldl_removeA (inputs : List TxIn) :
    ∀ (u : List ((H256 × Nat) × (Nat × H160))),
      (u.map Prod.fst).Nodup →
      (((inputs.foldl (fun u txin => removeA u (txin.previous_output, txin.index)) u)).map
        Prod.fst).Nodup := by
  induction inputs with
  | nil => intro u h; exact h
  | cons txin rest ih =>
      intro u h
      simp only [List.foldl_cons]
      exact ih _ (nodup_keys_removeA u _ h)

/-- An outpoint named by some input is gone after the removal fold. -/
theorem lookupA_foldl_removeA_mem (inputs : List TxIn) :
    ∀ (u : List ((H256 × Nat) × (Nat × H160))) (k : H256 × Nat),
      (u.map Prod.fst).Nodup →
      k ∈ (inputs.map fun txin => (txin.previous_output, txin.index)) →
      lookupA (inputs.foldl (fun u txin => removeA u (txin.previous_output, txin.index)) u) k
        = none := by
  induction inputs with
  | nil => intro u k _ hk; simp at hk
  | cons txin rest ih =>
      intro u k hnd hk
      simp only [List.map_cons, List.mem_cons] at hk
      simp only [List.foldl_cons]
      by_cases hkr : k ∈ rest.map fun txin => (txin.previous_output, txin.index)
      · exact ih _ k (nodup_keys_removeA u _ hnd) hkr
      · rcases hk with hk | hk
        · rw [lookupA_foldl_removeA_not_mem rest _ k hkr, hk]
          exact lookupA_removeA_self u _ hnd
        · exact absurd hk hkr

/-- Keys outside the inserted range pass through the output-insertion fold. -/
theorem lookupA_outputs_foldl_other (hh : H256) (os : List TxOut) :
    ∀ (u : List ((H256 × Nat) × (Nat × H160))) (c : Nat) (k : H256 × Nat),
      (∀ j, c ≤ j → j < c + os.length → k ≠ (hh, j)) →
      lookupA ((os.foldl
        (fun (p : List ((H256 × Nat) × (Nat × H160)) × Nat) txout =>
          (insertA p.1 (hh, p.2) (txout.value, txout.recipient), p.2 + 1)) (u, c)).1) k
        = lookupA u k := by
  induction os with
  | nil => intro u c k _; rfl
  | cons o rest ih =>
      intro u c k h
      simp only [List.foldl_cons]
      rw [ih _ (c + 1) k (fun j hj1 hj2 => h j (by omega) (by simp [List.length_cons]; omega))]
      exact lookupA_insertA_ne _ _ _ _ (h c (Nat.le_refl c) (by simp [List.length_cons]))

/-- The `i`-th inserted key holds the `i`-th output after the fold. -/
theorem lookupA_outputs_foldl_at (hh : H256) (os : List TxOut) :
    ∀ (u : List ((H256 × Nat) × (Nat × H160))) (c i : Nat), i < os.length →
      lookupA ((os.foldl
        (fun (p : List ((H256 × Nat) × (Nat × H160)) × Nat) txout =>
          (insertA p.1 (hh, p.2) (txout.value, txout.recipient), p.2 + 1)) (u, c)).1)
        (hh, c + i)
        = (os.get? i).map fun o => (o.value, o.recipient) := by
  induction os with
  | nil => intro u c i hi; simp at hi
  | cons o rest ih =>
      intro u c i hi
      cases i with
      | zero =>
          have hother := lookupA_outputs_foldl_other hh rest
            (insertA u (hh, c) (o.value, o.recipient)) (c + 1) (hh, c)
            (fun j hj1 _ heq => by
              have : c = j := congrArg Prod.snd heq
              omega)
          have hstep := hother.trans
            (lookupA_insertA_self u (hh, c) (o.value, o.recipient))
          simpa [List.foldl_cons] using hstep
      | succ m =>
          have hrec := ih (insertA u (hh, c) (o.value, o.recipient)) (c + 1) m
            (Nat.lt_of_succ_lt_succ hi)
          rw [show c + (m + 1) = (c + 1) + m by omega]
          simpa [List.foldl_cons] using hrec

/-- C3 (amended): `State::update` removes exactly the entries named by the
inputs and inserts, for each output `i`, an entry at `(key, i)` holding
`(value, recipient)` — where `key` is the single SHA-256 of the serialized
`SignedTransaction` (the mempool key), not the canonical double-SHA txid. -/
theorem state_update_lookup_spec (s : State) (t : SignedTransaction)
    (hnd : (s.utxo.map Prod.fst).Nodup) :
    (∀ i, i < t.transaction.output.length →
        lookupA (s.update t).utxo (hashSignedTx t, i) =
          (t.transaction.output.get? i).map fun o => (o.value, o.recipient))
  ∧ (∀ k : H256 × Nat, (∀ i, i < t.transaction.output.length → k ≠ (hashSignedTx t, i)) →
        (k ∈ (t.transaction.input.map fun txin => (txin.previous_output, txin.index)) →
            lookupA (s.update t).utxo k = none)
      ∧ (k ∉ (t.transaction.input.map fun txin => (txin.previous_output, txin.index)) →
            lookupA (s.update t).utxo k = lookupA s.utxo k)) := by
  constructor
  · intro i hi
    have := lookupA_outputs_foldl_at (hashSignedTx t) t.transaction.output
      (t.transaction.input.foldl
        (fun u txin => removeA u (txin.previous_output, txin.index)) s.utxo) 0 i hi
    rw [Nat.zero_add] at this
    simpa [State.update] using this
  · intro k hk
    have hother := lookupA_outputs_foldl_other (hashSignedTx t) t.transaction.output
      (t.transaction.input.foldl
        (fun u txin => removeA u (txin.previous_output, txin.index)) s.utxo) 0 k
      (fun j _ hj2 => hk j (by omega))
    constructor
    · intro hmem
      have hrm := lookupA_foldl_removeA_mem t.transaction.input s.utxo k hnd hmem
      simp only [State.update]
      rw [hother, hrm]
    · intro hmem
      have hrm := lookupA_foldl_removeA_not_mem t.transaction.input s.utxo k hmem
      simp only [State.update]
      rw [hother, hrm]

/-- Witness for the amended C3 at a concrete state and transaction. -/
theorem state_update_lookup_spec_witness :
    lookupA (stC3.update txB).utxo (hashSignedTx txB, 1) = some (5, 2) ∧
    lookupA (stC3.update txB).utxo (7, 0) = none :=
  ⟨((state_update_lookup_spec stC3 txB (by decide!)).1 1 (by decide!)).trans (by decide!),
   ((state_update_lookup_spec stC3 txB (by decide!)).2 (7, 0) (by decide!)).1 (by decide!)⟩

/-- The pairing loop of one construction round reads the `2·remaining`
elements at `start + 2·idx` and produces exactly the adjacent-pair hashes of
that slice. -/
theorem roundPairsGo_spec (tree : List H256) (start : Nat) :
    ∀ (remaining idx : Nat), start + 2 * idx + 2 * remaining ≤ tree.length →
      roundPairsGo tree start idx remaining =
        some (pairHash ((tree.drop (start + 2 * idx)).take (2 * remaining))) := by
  intro remaining
  induction remaining with
  | zero => intro idx _; simp [roundPairsGo, pairHash]
  | succ m ih =>
      intro idx h
      have h1 : start + 2 * idx < tree.length := by omega
      have h2 : start + 2 * idx + 1 < tree.length := by omega
      have hg1 : getA tree (start + 2 * idx) = some (tree[start + 2 * idx]) := by
        simp [getA, List.get?_eq_getElem?, List.getElem?_eq_getElem h1]
      have hg2 : getA tree (start + 2 * idx + 1) = some (tree[start + 2 * idx + 1]) := by
        simp [getA, List.get?_eq_getElem?, List.getElem?_eq_getElem h2]
      simp only [roundPairsGo, hg1, hg2]
      rw [ih (idx + 1) (by omega)]
      rw [List.drop_eq_getElem_cons h1,
          show 2 * (m + 1) = (2 * m + 1) + 1 by omega, List.take_succ_cons,
          List.drop_eq_getElem_cons (show start + 2 * idx + 1 < tree.length from h2),
          List.take_succ_cons]
      rw [show start + 2 * idx + 1 + 1 = start + 2 * (idx + 1) by omega]
      simp [pairHash]

/-- C5 (amended): one iteration of the row-building loop appends the
adjacent-pair hashes of the current row and then duplicates the last buffer
element exactly when the ORIGINAL input length `data.len()` is odd — the
current row's parity is never consulted (for even input lengths an odd row
is left unpadded, which makes the next round read out of bounds, as the
counterexample at six leaves shows). -/
theorem merkle_round_pairs_and_dup_rule
    (dataLen : Nat) (tree : List H256) (start curLen : Nat)
    (hlen : start + curLen ≤ tree.length) (heven : curLen % 2 = 0) :
    merkleRound dataLen tree start curLen =
      some (if dataLen % 2 = 1 then
              (tree ++ pairHash ((tree.drop start).take curLen)) ++
                [(tree ++ pairHash ((tree.drop start).take curLen)).getLast?.getD 0]
            else tree ++ pairHash ((tree.drop start).take curLen)) := by
  have hsp := roundPairsGo_spec tree start (curLen / 2) 0 (by omega)
  rw [show start + 2 * 0 = start by omega, show 2 * (curLen / 2) = curLen by omega] at hsp
  simp only [merkleRound, hsp]

/-- Witness for the amended C5: a round over an even row with even
`data.len()` appends the pair hashes and no duplicate. -/
theorem merkle_round_pairs_and_dup_rule_witness :
    merkleRound 6 [1, 2, 3, 4] 0 4 = some ([1, 2, 3, 4] ++ pairHash [1, 2, 3, 4]) :=
  (merkle_round_pairs_and_dup_rule 6 [1, 2, 3, 4] 0 4 (by decide) (by decide)).trans
    (by decide!)

/-- One insertion with a present parent and a fresh hash succeeds and
preserves the strengthened chain invariant. -/
theorem insert_step_strong (c : Blockchain) (b : Block)
    (hinv : StrongInv c) (hpre : InsertPre c b) :
    ∃ c', c.insert b = some c' ∧ StrongInv c' := by
  obtain ⟨⟨hblocks, htipmem, htipmax⟩, hkeys, hgen⟩ := hinv
  obtain ⟨hparent, hfresh⟩ := hpre
  have hparentL : containsA c.lengthmap b.header.parent = true := by
    rw [← containsA_congr_keys c.blockmap c.lengthmap hkeys]; exact hparent
  have hfreshL : containsA c.lengthmap (hashBlock b) = false := by
    rw [← containsA_congr_keys c.blockmap c.lengthmap hkeys]; exact hfresh
  obtain ⟨hpv, hp⟩ : ∃ v, lookupA c.lengthmap b.header.parent = some v := by
    cases hl : lookupA c.lengthmap b.header.parent with
    | none => rw [containsA, hl] at hparentL; simp at hparentL
    | some v => exact ⟨v, rfl⟩
  have hb_ne_tip : c.tip ≠ hashBlock b := by
    intro he
    rw [he, hfreshL] at htipmem
    simp at htipmem
  have hb_ne_gen : hashBlock b ≠ genesisHash := by
    intro he
    rw [← he, hfresh] at hgen
    simp at hgen
  have hb_ne_parent : b.header.parent ≠ hashBlock b := by
    intro he
    rw [he, hfreshL] at hparentL
    simp at hparentL
  obtain ⟨htv, ht⟩ : ∃ v, lookupA c.lengthmap c.tip = some v := by
    cases hl : lookupA c.lengthmap c.tip with
    | none => rw [containsA, hl] at htipmem; simp at htipmem
    | some v => exact ⟨v, rfl⟩
  have htL : lookupA (insertA c.lengthmap (hashBlock b) (hpv + 1)) c.tip = some htv := by
    rw [lookupA_insertA_ne _ _ _ _ hb_ne_tip]; exact ht
  refine ⟨⟨insertA c.blockmap (hashBlock b) b, insertA c.lengthmap (hashBlock b) (hpv + 1),
           if htv < hpv + 1 then hashBlock b else c.tip⟩, ?_, ?_⟩
  · simp [Blockchain.insert, hp, htL]
  · have hfreshbm : lookupA c.blockmap (hashBlock b) = none := by
      cases hl : lookupA c.blockmap (hashBlock b) with
      | none => rfl
      | some v => rw [containsA, hl] at hfresh; simp at hfresh
    have hfreshlm : lookupA c.lengthmap (hashBlock b) = none := by
      cases hl : lookupA c.lengthmap (hashBlock b) with
      | none => rfl
      | some v => rw [containsA, hl] at hfreshL; simp at hfreshL
    have hkeysnew : (insertA c.blockmap (hashBlock b) b).map Prod.fst =
        (insertA c.lengthmap (hashBlock b) (hpv + 1)).map Prod.fst := by
      rw [keys_insertA_fresh c.blockmap (hashBlock b) b hfresh,
          keys_insertA_fresh c.lengthmap (hashBlock b) (hpv + 1) hfreshL, hkeys]
    refine ⟨⟨?_, ?_, ?_⟩, hkeysnew, ?_⟩
    · -- per-entry parent/height relation
      intro p hpmem hpgen
      rcases mem_insertA c.blockmap (hashBlock b) b p hpmem with rfl | hpold
      · constructor
        · exact containsA_insertA_mono c.blockmap (hashBlock b) b.header.parent b hparent
        · rw [lookupA_insertA_self, lookupA_insertA_ne _ _ _ _ hb_ne_parent, hp]
          rfl
      · obtain ⟨hc1, hc2⟩ := hblocks p hpold hpgen
        have hp1_ne : p.1 ≠ hashBlock b := by
          intro he
          have : containsA c.blockmap p.1 = true :=
            (containsA_eq_mem_keys c.blockmap p.1).2 (List.mem_map_of_mem Prod.fst hpold)
          rw [he, hfresh] at this
          simp at this
        have hpar_ne : p.2.header.parent ≠ hashBlock b := by
          intro he
          rw [he, hfresh] at hc1
          simp at hc1
        constructor
        · exact containsA_insertA_mono c.blockmap (hashBlock b) p.2.header.parent b hc1
        · rw [lookupA_insertA_ne _ _ _ _ hp1_ne, lookupA_insertA_ne _ _ _ _ hpar_ne]
          exact hc2
    · -- the new tip is present
      by_cases hlt : htv < hpv + 1
      · simp only [if_pos hlt]
        exact containsA_insertA_self c.lengthmap (hashBlock b) (hpv + 1)
      · simp only [if_neg hlt, containsA, htL]
        rfl
    · -- the tip height is maximal
      intro q hq
      rcases mem_insertA c.lengthmap (hashBlock b) (hpv + 1) q hq with rfl | hqold
      · by_cases hlt : htv < hpv + 1
        · simp [if_pos hlt, lookupA_insertA_self]
        · simp only [if_neg hlt, htL]
          simp
          omega
      · have hqle : q.2 ≤ htv := by
          have := htipmax q hqold
          rw [ht] at this
          simpa using this
        by_cases hlt : htv < hpv + 1
        · simp only [if_pos hlt, lookupA_insertA_self]
          simp
          omega
        · simp only [if_neg hlt, htL]
          simp
          omega
    · -- genesis stays present
      exact containsA_insertA_mono c.blockmap (hashBlock b) genesisHash b hgen

/-- A sequence of preconditioned insertions preserves the invariant. -/
theorem insertSeq_strong :
    ∀ (bs : List Block) (c : Blockchain), StrongInv c → SeqPre c bs →
      ∃ c', insertSeq c bs = some c' ∧ StrongInv c' := by
  intro bs
  induction bs with
  | nil => intro c hc _; exact ⟨c, rfl, hc⟩
  | cons b rest ih =>
      intro c hc hsp
      obtain ⟨hpre, hrest⟩ := hsp
      obtain ⟨c₁, hins, hc₁⟩ := insert_step_strong c b hc hpre
      obtain ⟨c', hseq, hc'⟩ := ih c₁ hc₁ (hrest c₁ hins)
      exact ⟨c', by simp [insertSeq, hins, hseq], hc'⟩

/-- C8 (confirmed): starting from `Blockchain::new` and inserting any
sequence of blocks whose parents are present and whose hashes are fresh,
every non-genesis block `b` satisfies `heightmap[b] = heightmap[b.parent]+1`
with its parent in the block map, and the tip attains the maximum height. -/
theorem chain_height_invariant (bs : List Block) (c' : Blockchain)
    (hpre : SeqPre Blockchain.new bs)
    (hrun : insertSeq Blockchain.new bs = some c') :
    ChainInv c' := by
  obtain ⟨c'', hseq, hc''⟩ := insertSeq_strong bs Blockchain.new (by decide!) hpre
  obtain rfl : c'' = c' := Option.some.inj (hseq.symm.trans hrun)
  exact hc''.1

/-- Witness for C8: the singleton sequence inserting a child of genesis. -/
theorem chain_height_invariant_witness :
    insertSeq Blockchain.new [blkChild] = some chainSeqW ∧ ChainInv chainSeqW :=
  ⟨by decide!,
   chain_height_invariant [blkChild] chainSeqW
     ⟨⟨by decide!, by decide!⟩, fun _ _ => trivial⟩ (by decide!)⟩
